import Mathlib

/-!
Verification of the day-1 calibration core of the repository
(`src/rust/day1/src/main.rs`): a character trie over the digit tokens
`1`..`9` / `one`..`nine`, the left-to-right scanner `get_until_digit`,
and the per-line calibrator `calibrate`.

The Rust `HashMap<char, TrieNode>` is rendered as an association list
with unique keys; all trie queries go through `List.lookup`, so the
list order is irrelevant to every lookup-based fact proved below.
-/

set_option maxRecDepth 10000

/-- Trie node (Rust `struct TrieNode { next: HashMap<char, TrieNode>, val: Option<u32> }`). -/
inductive TrieNode where
  | mk (next : List (Char × TrieNode)) (val : Option Nat)

/-- The children map of a node. -/
def TrieNode.next : TrieNode → List (Char × TrieNode)
  | .mk n _ => n

/-- The optional digit value of a node. -/
def TrieNode.val : TrieNode → Option Nat
  | .mk _ v => v

/-- Rust `TrieNode::new()`: empty children, no value. -/
def TrieNode.new : TrieNode := .mk [] none

/-- Replace the child keyed `c` (Rust updates the hash-map entry in place via `get_mut`). -/
def updateChild (next : List (Char × TrieNode)) (c : Char) (t : TrieNode) :
    List (Char × TrieNode) :=
  next.map (fun p => if p.1 == c then (c, t) else p)

/-- Rust `TrieNode::insert`: recursive walk on the key; at the end of the key the
value is stored; an existing child is updated in place, a missing child is created. -/
def TrieNode.insert (t : TrieNode) : List Char → Nat → TrieNode
  | [], v => .mk t.next (some v)
  | c :: rest, v =>
    match List.lookup c t.next with
    | some child => .mk (updateChild t.next c (child.insert rest v)) t.val
    | none => .mk (t.next ++ [(c, TrieNode.new.insert rest v)]) t.val

/-- Rust `TrieNode::with_digits()`: the eighteen built-in (key, value) pairs,
inserted in the source's order. -/
def TrieNode.with_digits : TrieNode :=
  TrieNode.new.insert ("one".toList) 1
    |>.insert ("1".toList) 1
    |>.insert ("two".toList) 2
    |>.insert ("2".toList) 2
    |>.insert ("three".toList) 3
    |>.insert ("3".toList) 3
    |>.insert ("four".toList) 4
    |>.insert ("4".toList) 4
    |>.insert ("five".toList) 5
    |>.insert ("5".toList) 5
    |>.insert ("six".toList) 6
    |>.insert ("6".toList) 6
    |>.insert ("seven".toList) 7
    |>.insert ("7".toList) 7
    |>.insert ("eight".toList) 8
    |>.insert ("8".toList) 8
    |>.insert ("nine".toList) 9
    |>.insert ("9".toList) 9

/-- A second run of the same construction (Rust: calling `with_digits()` a second
time), used to state idempotence of trie construction. -/
def TrieNode.with_digits_again : TrieNode :=
  TrieNode.new.insert ("one".toList) 1
    |>.insert ("1".toList) 1
    |>.insert ("two".toList) 2
    |>.insert ("2".toList) 2
    |>.insert ("three".toList) 3
    |>.insert ("3".toList) 3
    |>.insert ("four".toList) 4
    |>.insert ("4".toList) 4
    |>.insert ("five".toList) 5
    |>.insert ("5".toList) 5
    |>.insert ("six".toList) 6
    |>.insert ("6".toList) 6
    |>.insert ("seven".toList) 7
    |>.insert ("7".toList) 7
    |>.insert ("eight".toList) 8
    |>.insert ("8".toList) 8
    |>.insert ("nine".toList) 9
    |>.insert ("9".toList) 9

/-- The built-in trie, shared by the whole run. -/
def digitsTrie : TrieNode := TrieNode.with_digits

/-- Rust `TrieNode::get_digit`: descend the trie one character at a time; at the
first node carrying a value, return it together with the number of characters
consumed to reach that node; fail if an edge is missing or the line ends first.

(The Rust body passes the eagerly evaluated descent as the `map_or` default, so
on a valued node the probe cursor may be consumed further, but the returned
value is `(Some(val), read_count)` either way; the cursor is a clone whose final
state the caller never reads, so the returned pair below is the faithful
rendering.) -/
def TrieNode.get_digit (t : TrieNode) : List Char → Nat → Option Nat × Nat
  | [], read_count =>
    match t.val with
    | some v => (some v, read_count)
    | none => (none, 0)
  | ch :: rest, read_count =>
    match t.val with
    | some v => (some v, read_count)
    | none =>
      match List.lookup ch t.next with
      | some child => child.get_digit rest (read_count + 1)
      | none => (none, 0)

/-- Rust `get_until_digit`: probe `get_digit` on a clone of the cursor; on a match,
advance the real cursor past what was just read (`read_count` characters) and
return the digit; on a miss, advance one character; at the end return `None`.
The returned list is the state of the cursor after the call. -/
def get_until_digit (t : TrieNode) : List Char → Option Nat × List Char
  | [] =>
    match t.get_digit [] 0 with
    | (some d, read_count) => (some d, List.drop read_count [])
    | (none, _) => (none, [])
  | c :: rest =>
    match t.get_digit (c :: rest) 0 with
    | (some d, read_count) => (some d, (c :: rest).drop read_count)
    | (none, _) => get_until_digit t rest

/-- The `while let` loop of Rust `calibrate`, keeping the last digit seen.
`fuel` bounds the number of loop iterations; `calibrate` passes
`line.length + 1`, which is enough whenever the trie root carries no value
(each successful match then consumes at least one character — see
`calibrateLoop_fuel_irrel`).  With a valued root the Rust loop would not
terminate at all, so no fuel is adequate there. -/
def calibrateLoop (t : TrieNode) : Nat → List Char → Nat → Nat
  | 0, _, last => last
  | fuel + 1, chars, last =>
    match get_until_digit t chars with
    | (some d, rest) => calibrateLoop t fuel rest d
    | (none, _) => last

/-- Rust `calibrate`: first digit (0 when absent), then keep scanning for the
last digit from the cursor position left by the first scan; result is
`first * 10 + last`. -/
def calibrate (t : TrieNode) (line : List Char) : Nat :=
  let r := get_until_digit t line
  let first := r.1.getD 0
  let last := calibrateLoop t (line.length + 1) r.2 first
  first * 10 + last

/-- The full digit sequence the scanner yields over a line (the digits produced
by successive `get_until_digit` calls), with the same fuel discipline as
`calibrateLoop`. -/
def scanAux (t : TrieNode) : Nat → List Char → List Nat
  | 0, _ => []
  | fuel + 1, chars =>
    match get_until_digit t chars with
    | (some d, rest) => d :: scanAux t fuel rest
    | (none, _) => []

/-- Digit sequence yielded over a whole line. -/
def scan (t : TrieNode) (line : List Char) : List Nat :=
  scanAux t (line.length + 1) line

/-- The driver's accumulation (Rust `main`): sum of per-line calibrations. -/
def total (t : TrieNode) (lines : List (List Char)) : Nat :=
  (lines.map (calibrate t)).sum

/-- The node reached from `t` by descending along `k`, if every edge exists. -/
def nodeAt (t : TrieNode) : List Char → Option TrieNode
  | [] => some t
  | c :: rest =>
    match List.lookup c t.next with
    | some child => nodeAt child rest
    | none => none

/-- The value stored at the end of path `k`, if the path exists and is terminal. -/
def pathVal (t : TrieNode) (k : List Char) : Option Nat :=
  (nodeAt t k).bind TrieNode.val

/-- The eighteen built-in (key, value) pairs of the vocabulary table. -/
def digitKeys : List (List Char × Nat) :=
  [("one".toList, 1), ("1".toList, 1), ("two".toList, 2), ("2".toList, 2),
   ("three".toList, 3), ("3".toList, 3), ("four".toList, 4), ("4".toList, 4),
   ("five".toList, 5), ("5".toList, 5), ("six".toList, 6), ("6".toList, 6),
   ("seven".toList, 7), ("7".toList, 7), ("eight".toList, 8), ("8".toList, 8),
   ("nine".toList, 9), ("9".toList, 9)]

/-- Specification-side token test: the digit token starting at the head of `s`,
i.e. the value of the vocabulary key that is a prefix of `s` (the built-in keys
are prefix-free, so at most one key matches). -/
def specTokenAt (s : List Char) : Option Nat :=
  (digitKeys.find? (fun kv => kv.1.isPrefixOf s)).map (fun kv => kv.2)

/-- Specification-side token stream: the digit of every token occurrence in the
line, in order of starting position (overlapping occurrences all included). -/
def tokensOf : List Char → List Nat
  | [] => []
  | c :: rest =>
    match specTokenAt (c :: rest) with
    | some d => d :: tokensOf rest
    | none => tokensOf rest

/-- All (key, value) pairs reachable within depth `n`. -/
def keysValsD : Nat → TrieNode → List (List Char × Nat)
  | 0, t =>
    match t.val with
    | some v => [([], v)]
    | none => []
  | n + 1, t =>
    (match t.val with
     | some v => [([], v)]
     | none => []) ++
    t.next.flatMap (fun p => (keysValsD n p.2).map (fun kv => (p.1 :: kv.1, kv.2)))

/-- Bounded depth check: every path of the trie has length at most `n`. -/
def depthLe : Nat → TrieNode → Bool
  | 0, t => t.next.isEmpty
  | n + 1, t => t.next.all (fun p => depthLe n p.2)

/-- All subtrie nodes reachable within depth `n`. -/
def subtriesD : Nat → TrieNode → List TrieNode
  | 0, t => [t]
  | n + 1, t => t :: t.next.flatMap (fun p => subtriesD n p.2)

/-- The nine spelled keys of the vocabulary (the word tokens only). -/
def spelledKeys : List (List Char × Nat) :=
  [("one".toList, 1), ("two".toList, 2), ("three".toList, 3),
   ("four".toList, 4), ("five".toList, 5), ("six".toList, 6),
   ("seven".toList, 7), ("eight".toList, 8), ("nine".toList, 9)]

/-- The ASCII digit character for a digit value 1..9. -/
def digitChar (d : Nat) : Char := Char.ofNat (48 + d)

/-- Position `n` along the descent from `t` over `s` is the first terminal:
the path of the first `n` characters exists and carries value `d`, every
shorter path exists but carries no value, and `n` characters are available. -/
def EarliestTerminal (t : TrieNode) (s : List Char) (d n : Nat) : Prop :=
  n ≤ s.length ∧
  (∃ u, nodeAt t (s.take n) = some u ∧ u.val = some d) ∧
  ∀ m, m < n → ∃ u, nodeAt t (s.take m) = some u ∧ u.val = none

/-! ### Association list and accessor lemmas -/

theorem TrieNode.next_mk (n : List (Char × TrieNode)) (v : Option Nat) :
    (TrieNode.mk n v).next = n := rfl

theorem TrieNode.val_mk (n : List (Char × TrieNode)) (v : Option Nat) :
    (TrieNode.mk n v).val = v := rfl

theorem lookup_mem {c : Char} {l : List (Char × TrieNode)} {u : TrieNode}
    (h : List.lookup c l = some u) : (c, u) ∈ l := by
  rcases List.lookup_eq_some_iff.mp h with ⟨l1, l2, rfl, -⟩
  simp

/-! ### Unfolding lemmas for `get_digit`, `nodeAt`, `get_until_digit` -/

theorem get_digit_val_some {t : TrieNode} {v : Nat} (h : t.val = some v)
    (s : List Char) (rc : Nat) : t.get_digit s rc = (some v, rc) := by
  cases s <;> simp only [TrieNode.get_digit] <;> rw [h]

theorem get_digit_nil {t : TrieNode} (h : t.val = none) (rc : Nat) :
    t.get_digit [] rc = (none, 0) := by
  simp only [TrieNode.get_digit]
  rw [h]

theorem get_digit_cons_child {t u : TrieNode} {c : Char} (h : t.val = none)
    (hc : List.lookup c t.next = some u) (s : List Char) (rc : Nat) :
    t.get_digit (c :: s) rc = u.get_digit s (rc + 1) := by
  simp only [TrieNode.get_digit]
  rw [h, hc]

theorem get_digit_cons_no_edge {t : TrieNode} {c : Char} (h : t.val = none)
    (hc : List.lookup c t.next = none) (s : List Char) (rc : Nat) :
    t.get_digit (c :: s) rc = (none, 0) := by
  simp only [TrieNode.get_digit]
  rw [h, hc]

theorem nodeAt_nil (t : TrieNode) : nodeAt t [] = some t := rfl

theorem nodeAt_cons_child {t u : TrieNode} {c : Char}
    (hc : List.lookup c t.next = some u) (k : List Char) :
    nodeAt t (c :: k) = nodeAt u k := by
  simp [nodeAt, hc]

theorem nodeAt_cons_no_edge {t : TrieNode} {c : Char}
    (hc : List.lookup c t.next = none) (k : List Char) :
    nodeAt t (c :: k) = none := by
  simp [nodeAt, hc]

theorem pathVal_nil (t : TrieNode) : pathVal t [] = t.val := rfl

theorem pathVal_cons_child {t u : TrieNode} {c : Char}
    (hc : List.lookup c t.next = some u) (k : List Char) :
    pathVal t (c :: k) = pathVal u k := by
  simp [pathVal, nodeAt_cons_child hc]

theorem gud_nil {t : TrieNode} (h : t.val = none) :
    get_until_digit t [] = (none, []) := by
  simp [get_until_digit, get_digit_nil h]

theorem gud_cons_some {t : TrieNode} {c : Char} {cs : List Char} {d n : Nat}
    (h : t.get_digit (c :: cs) 0 = (some d, n)) :
    get_until_digit t (c :: cs) = (some d, (c :: cs).drop n) := by
  simp [get_until_digit, h]

theorem gud_cons_none {t : TrieNode} {c : Char} {cs : List Char} {m : Nat}
    (h : t.get_digit (c :: cs) 0 = (none, m)) :
    get_until_digit t (c :: cs) = get_until_digit t cs := by
  simp [get_until_digit, h]

/-! ### Soundness and completeness of the descent -/

/-- Every successful probe corresponds to a terminal path of the trie that is a
prefix of the scanned characters, and the reported count is that path's length. -/
theorem get_digit_sound :
    ∀ {s : List Char} {t : TrieNode} {rc d n : Nat},
      t.get_digit s rc = (some d, n) →
      ∃ k, k <+: s ∧ pathVal t k = some d ∧ n = rc + k.length := by
  intro s
  induction s with
  | nil =>
    intro t rc d n h
    cases hv : t.val with
    | some v =>
      rw [get_digit_val_some hv] at h
      cases h
      exact ⟨[], List.nil_prefix, by rw [pathVal_nil, hv], by simp⟩
    | none =>
      rw [get_digit_nil hv] at h
      cases h
  | cons c cs ih =>
    intro t rc d n h
    cases hv : t.val with
    | some v =>
      rw [get_digit_val_some hv] at h
      cases h
      exact ⟨[], List.nil_prefix, by rw [pathVal_nil, hv], by simp⟩
    | none =>
      cases hc : List.lookup c t.next with
      | some child =>
        rw [get_digit_cons_child hv hc] at h
        rcases ih h with ⟨k, hk, hpv, hn⟩
        refine ⟨c :: k, ?_, ?_, ?_⟩
        · exact (List.cons_prefix_cons).mpr ⟨rfl, hk⟩
        · rw [pathVal_cons_child hc, hpv]
        · simp [hn]; omega
      | none =>
        rw [get_digit_cons_no_edge hv hc] at h
        cases h

/-- If some terminal path of the trie is a prefix of the scanned characters,
the probe succeeds (possibly with a different, earlier terminal). -/
theorem get_digit_of_pathVal :
    ∀ {k : List Char} {t : TrieNode} {s : List Char} {v : Nat} (rc : Nat),
      pathVal t k = some v → k <+: s →
      ∃ d n, t.get_digit s rc = (some d, n) := by
  intro k
  induction k with
  | nil =>
    intro t s v rc hpv _
    rw [pathVal_nil] at hpv
    exact ⟨v, rc, get_digit_val_some hpv s rc⟩
  | cons c k1 ih =>
    intro t s v rc hpv hpre
    rcases hpre with ⟨b, rfl⟩
    cases hv : t.val with
    | some w => exact ⟨w, rc, get_digit_val_some hv _ rc⟩
    | none =>
      cases hc : List.lookup c t.next with
      | some child =>
        rw [pathVal_cons_child hc] at hpv
        rcases ih (rc + 1) hpv (List.prefix_append k1 b) with ⟨d, n, hd⟩
        exact ⟨d, n, by rw [List.cons_append, get_digit_cons_child hv hc, hd]⟩
      | none =>
        rw [pathVal] at hpv
        rw [nodeAt_cons_no_edge hc] at hpv
        cases hpv

/-- A path that exists in a depth-bounded trie has length at most the bound. -/
theorem nodeAt_length_le :
    ∀ {k : List Char} {n : Nat} {t u : TrieNode},
      depthLe n t = true → nodeAt t k = some u → k.length ≤ n := by
  intro k
  induction k with
  | nil => intro n t u _ _; simp
  | cons c k1 ih =>
    intro n t u hd hn
    cases hc : List.lookup c t.next with
    | some child =>
      rw [nodeAt_cons_child hc] at hn
      cases n with
      | zero =>
        rw [depthLe] at hd
        rw [List.isEmpty_iff] at hd
        rw [hd] at hc
        cases hc
      | succ m =>
        rw [depthLe] at hd
        rw [List.all_eq_true] at hd
        have := hd _ (lookup_mem hc)
        simpa using Nat.succ_le_succ (ih this hn)
    | none =>
      rw [nodeAt_cons_no_edge hc] at hn
      cases hn

/-- Every terminal path of length at most `n` is listed in `keysValsD n`. -/
theorem pathVal_mem_keysValsD :
    ∀ {k : List Char} {n : Nat} {t : TrieNode} {v : Nat},
      pathVal t k = some v → k.length ≤ n → (k, v) ∈ keysValsD n t := by
  intro k
  induction k with
  | nil =>
    intro n t v hpv _
    rw [pathVal_nil] at hpv
    cases n <;> simp [keysValsD, hpv]
  | cons c k1 ih =>
    intro n t v hpv hlen
    cases hc : List.lookup c t.next with
    | some child =>
      rw [pathVal_cons_child hc] at hpv
      cases n with
      | zero => simp at hlen
      | succ m =>
        have hm : k1.length ≤ m := by simpa using hlen
        have hmem := ih hpv hm
        rw [keysValsD]
        refine List.mem_append.mpr (Or.inr ?_)
        rw [List.mem_flatMap]
        exact ⟨(c, child), lookup_mem hc, by
          rw [List.mem_map]
          exact ⟨(k1, v), hmem, rfl⟩⟩
    | none =>
      rw [pathVal] at hpv
      rw [nodeAt_cons_no_edge hc] at hpv
      cases hpv

/-! ### Concrete facts about the built-in trie, checked by evaluation -/

theorem digitsTrie_val : digitsTrie.val = none := rfl

theorem digitsTrie_depth : depthLe 5 digitsTrie = true := by decide

theorem digitsTrie_keysVals_sub : ∀ kv ∈ keysValsD 5 digitsTrie, kv ∈ digitKeys := by decide

theorem digitsTrie_stores_all : ∀ kv ∈ digitKeys, pathVal digitsTrie kv.1 = some kv.2 := by
  decide

theorem digitKeys_prefix_free :
    ∀ p ∈ digitKeys, ∀ q ∈ digitKeys, p.1.isPrefixOf q.1 = true → p = q := by decide

theorem digitKeys_val_bound : ∀ kv ∈ digitKeys, 1 ≤ kv.2 ∧ kv.2 ≤ 9 := by decide

theorem digitKeys_key_ne_nil : ∀ kv ∈ digitKeys, kv.1 ≠ [] := by decide

theorem digitKeys_functional :
    ∀ p ∈ digitKeys, ∀ q ∈ digitKeys, p.1 = q.1 → p.2 = q.2 := by decide

/-- Every terminal path of the built-in trie is one of the eighteen table entries. -/
theorem digitsTrie_pathVal_mem {k : List Char} {d : Nat}
    (h : pathVal digitsTrie k = some d) : (k, d) ∈ digitKeys := by
  have hn : ∃ u, nodeAt digitsTrie k = some u := by
    rw [pathVal] at h
    cases hu : nodeAt digitsTrie k with
    | none => rw [hu] at h; cases h
    | some u => exact ⟨u, rfl⟩
  rcases hn with ⟨u, hu⟩
  have hlen : k.length ≤ 5 := nodeAt_length_le digitsTrie_depth hu
  exact digitsTrie_keysVals_sub _ (pathVal_mem_keysValsD h hlen)

/-! ### The probe agrees with the specification-side token test -/

/-- Two built-in keys that are prefixes of the same string are equal. -/
theorem digitKeys_unique {p q : List Char × Nat} {s : List Char}
    (hp : p ∈ digitKeys) (hq : q ∈ digitKeys) (h1 : p.1 <+: s) (h2 : q.1 <+: s) :
    p = q := by
  rcases List.prefix_or_prefix_of_prefix h1 h2 with h | h
  · exact digitKeys_prefix_free p hp q hq (List.isPrefixOf_iff_prefix.mpr h)
  · exact (digitKeys_prefix_free q hq p hp (List.isPrefixOf_iff_prefix.mpr h)).symm

/-- `specTokenAt` in terms of key membership and prefixes (forward reading). -/
theorem specTokenAt_some {s : List Char} {d : Nat} (h : specTokenAt s = some d) :
    ∃ kv, kv ∈ digitKeys ∧ kv.2 = d ∧ kv.1 <+: s := by
  rw [specTokenAt] at h
  cases hf : List.find? (fun kv => kv.1.isPrefixOf s) digitKeys with
  | none => rw [hf] at h; cases h
  | some kv =>
    rw [hf] at h
    cases h
    have hps := List.find?_some hf
    rw [List.isPrefixOf_iff_prefix] at hps
    exact ⟨kv, List.mem_of_find?_eq_some hf, rfl, hps⟩

/-- `specTokenAt` succeeds whenever some built-in key is a prefix. -/
theorem specTokenAt_of_key {kv : List Char × Nat} {s : List Char}
    (hm : kv ∈ digitKeys) (hp : kv.1 <+: s) : specTokenAt s = some kv.2 := by
  cases hf : List.find? (fun kv => kv.1.isPrefixOf s) digitKeys with
  | none =>
    rw [List.find?_eq_none] at hf
    have := hf kv hm
    rw [List.isPrefixOf_iff_prefix] at this
    exact absurd hp this
  | some kv2 =>
    have h2 : kv2 ∈ digitKeys := List.mem_of_find?_eq_some hf
    have hp2 := List.find?_some hf
    rw [List.isPrefixOf_iff_prefix] at hp2
    have : kv2 = kv := digitKeys_unique h2 hm hp2 hp
    rw [specTokenAt, hf, this]
    rfl

/-- Workhorse: the result of the probe at a position is exactly the token the
specification sees there; on success the count is the token key's length. -/
theorem probe_spec (s : List Char) :
    match digitsTrie.get_digit s 0 with
    | (some d, n) => specTokenAt s = some d ∧
        ∃ k, (k, d) ∈ digitKeys ∧ k <+: s ∧ n = k.length
    | (none, _) => specTokenAt s = none := by
  cases hp : digitsTrie.get_digit s 0 with
  | mk o n =>
    cases o with
    | some d =>
      rcases get_digit_sound hp with ⟨k, hpre, hpv, hn⟩
      have hmem : (k, d) ∈ digitKeys := digitsTrie_pathVal_mem hpv
      refine ⟨specTokenAt_of_key hmem hpre, k, hmem, hpre, by simpa using hn⟩
    | none =>
      cases hs : specTokenAt s with
      | none => trivial
      | some d =>
        rcases specTokenAt_some hs with ⟨kv, hm, hd, hpre⟩
        have hpv : pathVal digitsTrie kv.1 = some kv.2 := digitsTrie_stores_all kv hm
        rcases get_digit_of_pathVal 0 hpv hpre with ⟨d2, n2, hd2⟩
        rw [hp] at hd2
        cases hd2

/-! ### Characterization of `get_until_digit` -/

/-- `get_until_digit` succeeds exactly at the earliest position whose probe
succeeds, and on success the cursor is advanced past the matched token
(by the matched length, not by one character). -/
theorem gud_spec (t : TrieNode) :
    ∀ s : List Char,
      match get_until_digit t s with
      | (some d, rest) => ∃ p n, t.get_digit (s.drop p) 0 = (some d, n) ∧
          rest = s.drop (p + n) ∧ ∀ q, q < p → (t.get_digit (s.drop q) 0).1 = none
      | (none, rest) => rest = [] ∧ ∀ p, (t.get_digit (s.drop p) 0).1 = none := by
  intro s
  induction s with
  | nil =>
    cases hp : t.get_digit [] 0 with
    | mk o n =>
      cases o with
      | some d =>
        have : get_until_digit t [] = (some d, List.drop n []) := by
          simp [get_until_digit, hp]
        rw [this]
        exact ⟨0, n, by simpa using hp, by simp, by omega⟩
      | none =>
        have : get_until_digit t [] = (none, []) := by
          simp [get_until_digit, hp]
        rw [this]
        exact ⟨rfl, fun p => by simp [hp]⟩
  | cons c cs ih =>
    cases hp : t.get_digit (c :: cs) 0 with
    | mk o n =>
      cases o with
      | some d =>
        rw [gud_cons_some hp]
        exact ⟨0, n, by simpa using hp, by simp, by omega⟩
      | none =>
        rw [gud_cons_none hp]
        cases hg : get_until_digit t cs with
        | mk o2 rest2 =>
          cases o2 with
          | some d2 =>
            rw [hg] at ih
            rcases ih with ⟨p, n2, hpr, hrest, hbefore⟩
            refine ⟨p + 1, n2, by simpa using hpr, ?_, ?_⟩
            · have harith : p + 1 + n2 = (p + n2) + 1 := by omega
              rw [harith, List.drop_succ_cons]
              exact hrest
            intro q hq
            cases q with
            | zero => simp [hp]
            | succ q1 =>
              have : q1 < p := by omega
              simpa using hbefore q1 this
          | none =>
            rw [hg] at ih
            rcases ih with ⟨hrest, hall⟩
            refine ⟨hrest, ?_⟩
            intro p
            cases p with
            | zero => simp [hp]
            | succ p1 => simpa using hall p1

/-- A miss of `get_until_digit` consumes the whole line. -/
theorem gud_none_nil {t : TrieNode} {s : List Char} {r : List Char}
    (h : get_until_digit t s = (none, r)) : r = [] := by
  have hs := gud_spec t s
  rw [h] at hs
  exact hs.1

/-- On a trie whose root is not terminal, every successful probe consumes at
least one character. -/
theorem probe_pos {t : TrieNode} {s : List Char} {d n : Nat}
    (hval : t.val = none) (h : t.get_digit s 0 = (some d, n)) : 1 ≤ n := by
  rcases get_digit_sound h with ⟨k, _, hpv, hn⟩
  cases k with
  | nil => rw [pathVal_nil, hval] at hpv; cases hpv
  | cons c k1 => simp [hn]

/-- Progress: on a trie whose root is not terminal, a successful scan strictly
shortens the remaining line. -/
theorem gud_progress {t : TrieNode} {s : List Char} {d : Nat} {rest : List Char}
    (hval : t.val = none) (h : get_until_digit t s = (some d, rest)) :
    rest.length < s.length := by
  have hs := gud_spec t s
  rw [h] at hs
  rcases hs with ⟨p, n, hpr, hrest, -⟩
  have hn : 1 ≤ n := probe_pos hval hpr
  have hne : s.drop p ≠ [] := by
    intro hnil
    rw [hnil, get_digit_nil hval] at hpr
    cases hpr
  have hps : p < s.length := by
    by_contra hh
    exact hne (List.drop_eq_nil_of_le (by omega))
  rw [hrest, List.length_drop]
  omega

/-! ### Fuel irrelevance and the scanner sequence -/

theorem scanAux_succ_some {t : TrieNode} {s rest : List Char} {d : Nat} (f : Nat)
    (h : get_until_digit t s = (some d, rest)) :
    scanAux t (f + 1) s = d :: scanAux t f rest := by
  simp only [scanAux, h]

theorem scanAux_succ_none {t : TrieNode} {s r : List Char} (f : Nat)
    (h : get_until_digit t s = (none, r)) : scanAux t (f + 1) s = [] := by
  simp only [scanAux, h]

theorem calibrateLoop_succ_some {t : TrieNode} {s rest : List Char} {d : Nat}
    (f last : Nat) (h : get_until_digit t s = (some d, rest)) :
    calibrateLoop t (f + 1) s last = calibrateLoop t f rest d := by
  simp only [calibrateLoop, h]

theorem calibrateLoop_succ_none {t : TrieNode} {s r : List Char} (f last : Nat)
    (h : get_until_digit t s = (none, r)) :
    calibrateLoop t (f + 1) s last = last := by
  simp only [calibrateLoop, h]

theorem scanAux_fuel_irrel {t : TrieNode} (hval : t.val = none) :
    ∀ {f1 f2 : Nat} {s : List Char}, s.length < f1 → s.length < f2 →
      scanAux t f1 s = scanAux t f2 s := by
  intro f1
  induction f1 with
  | zero => intro f2 s h1 _; omega
  | succ g1 ih =>
    intro f2 s h1 h2
    cases f2 with
    | zero => omega
    | succ g2 =>
      cases hg : get_until_digit t s with
      | mk o rest =>
        cases o with
        | some d =>
          have hlt := gud_progress hval hg
          rw [scanAux_succ_some g1 hg, scanAux_succ_some g2 hg]
          have hr1 : rest.length < g1 := by omega
          have hr2 : rest.length < g2 := by omega
          rw [ih hr1 hr2]
        | none => rw [scanAux_succ_none g1 hg, scanAux_succ_none g2 hg]

theorem calibrateLoop_eq_getLastD {t : TrieNode} (hval : t.val = none) :
    ∀ {fuel : Nat} {s : List Char} {last : Nat}, s.length < fuel →
      calibrateLoop t fuel s last = (scanAux t fuel s).getLastD last := by
  intro fuel
  induction fuel with
  | zero => intro s last h; omega
  | succ g ih =>
    intro s last h
    cases hg : get_until_digit t s with
    | mk o rest =>
      cases o with
      | some d =>
        have hlt := gud_progress hval hg
        have hr : rest.length < g := by omega
        rw [calibrateLoop_succ_some g last hg, scanAux_succ_some g hg,
          List.getLastD_cons, ih hr]
      | none =>
        rw [calibrateLoop_succ_none g last hg, scanAux_succ_none g hg]
        rfl

theorem scan_cons {t : TrieNode} {s : List Char} {d : Nat} {rest : List Char}
    (hval : t.val = none) (h : get_until_digit t s = (some d, rest)) :
    scan t s = d :: scan t rest := by
  have hlt := gud_progress hval h
  rw [scan, scan, scanAux_succ_some s.length h]
  have h1 : rest.length < s.length := hlt
  rw [scanAux_fuel_irrel hval h1 (Nat.lt_succ_self _)]

theorem scan_nil_of_none {t : TrieNode} {s : List Char} {r : List Char}
    (h : get_until_digit t s = (none, r)) : scan t s = [] := by
  rw [scan, scanAux_succ_none s.length h]

/-- `calibrate` in terms of the yielded digit sequence. -/
theorem calibrate_eq_scan {t : TrieNode} (hval : t.val = none) (s : List Char) :
    calibrate t s =
      if scan t s = [] then 0
      else 10 * (scan t s).headD 0 + (scan t s).getLastD 0 := by
  cases hg : get_until_digit t s with
  | mk o rest =>
    cases o with
    | none =>
      have hr : rest = [] := gud_none_nil hg
      have hscan : scan t s = [] := scan_nil_of_none hg
      rw [hscan]
      simp only [calibrate, hg, hr, Option.getD_none, if_true]
      rw [calibrateLoop_succ_none s.length 0 (gud_nil hval)]
    | some d =>
      have hlt := gud_progress hval hg
      have hscan : scan t s = d :: scan t rest := scan_cons hval hg
      rw [hscan]
      simp only [calibrate, hg, Option.getD_some, List.headD_cons,
        List.getLastD_cons, List.cons_ne_nil, if_false]
      rw [calibrateLoop_eq_getLastD hval (by omega), scan,
        scanAux_fuel_irrel hval (show rest.length < s.length + 1 by omega)
          (Nat.lt_succ_self _)]
      rw [Nat.succ_eq_add_one]
      omega

/-! ### The scanner against the specification token stream -/

theorem tokensOf_cons_some {c : Char} {cs : List Char} {d : Nat}
    (h : specTokenAt (c :: cs) = some d) :
    tokensOf (c :: cs) = d :: tokensOf cs := by
  simp only [tokensOf, h]

theorem tokensOf_cons_none {c : Char} {cs : List Char}
    (h : specTokenAt (c :: cs) = none) : tokensOf (c :: cs) = tokensOf cs := by
  simp only [tokensOf, h]

/-- The first digit found by the code's scanner is the first token occurrence
the specification sees; a miss means the line holds no token occurrence at all. -/
theorem gud_digits (s : List Char) :
    match get_until_digit digitsTrie s with
    | (some d, _) => tokensOf s ≠ [] ∧ (tokensOf s).headD 0 = d
    | (none, _) => tokensOf s = [] := by
  induction s with
  | nil =>
    rw [gud_nil digitsTrie_val]
    rfl
  | cons c cs ih =>
    have hps := probe_spec (c :: cs)
    cases hp : digitsTrie.get_digit (c :: cs) 0 with
    | mk o n =>
      rw [hp] at hps
      cases o with
      | some d =>
        rw [gud_cons_some hp]
        rw [tokensOf_cons_some hps.1]
        exact ⟨List.cons_ne_nil _ _, rfl⟩
      | none =>
        rw [gud_cons_none hp]
        rw [tokensOf_cons_none hps]
        exact ih

/-- Token occurrences of the tail are a suffix of those of the whole line. -/
theorem tokensOf_cons_suffix (c : Char) (cs : List Char) :
    tokensOf cs <:+ tokensOf (c :: cs) := by
  cases h : specTokenAt (c :: cs) with
  | some d =>
    rw [tokensOf_cons_some h]
    exact List.suffix_cons _ _
  | none =>
    rw [tokensOf_cons_none h]

theorem tokensOf_drop_suffix : ∀ (m : Nat) (s : List Char),
    tokensOf (s.drop m) <:+ tokensOf s := by
  intro m
  induction m with
  | zero => intro s; simp
  | succ m1 ih =>
    intro s
    cases s with
    | nil => simp
    | cons c cs =>
      rw [List.drop_succ_cons]
      exact (ih cs).trans (tokensOf_cons_suffix c cs)

/-- Every token occurrence carries a digit between 1 and 9. -/
theorem specTokenAt_bound {s : List Char} {d : Nat} (h : specTokenAt s = some d) :
    1 ≤ d ∧ d ≤ 9 := by
  rcases specTokenAt_some h with ⟨kv, hm, rfl, -⟩
  exact digitKeys_val_bound kv hm

theorem mem_tokensOf_bound : ∀ {s : List Char} {d : Nat}, d ∈ tokensOf s →
    1 ≤ d ∧ d ≤ 9 := by
  intro s
  induction s with
  | nil => intro d h; cases h
  | cons c cs ih =>
    intro d h
    cases hs : specTokenAt (c :: cs) with
    | some a =>
      rw [tokensOf_cons_some hs] at h
      rcases List.mem_cons.mp h with rfl | h2
      · exact specTokenAt_bound hs
      · exact ih h2
    | none =>
      rw [tokensOf_cons_none hs] at h
      exact ih h

/-- What the scanner yields is a subsequence of the token occurrences: the
scanner reports genuine tokens, in order, but may skip occurrences that start
inside an already matched token. -/
theorem scan_sublist_tokensOf : ∀ (s : List Char), (scan digitsTrie s).Sublist (tokensOf s) := by
  have main : ∀ (n : Nat) (s : List Char), s.length ≤ n →
      (scan digitsTrie s).Sublist (tokensOf s) := by
    intro n
    induction n with
    | zero =>
      intro s hs
      have : s = [] := List.eq_nil_of_length_eq_zero (by omega)
      subst this
      rw [scan_nil_of_none (gud_nil digitsTrie_val)]
      exact List.nil_sublist _
    | succ m ih =>
      intro s hs
      cases hg : get_until_digit digitsTrie s with
      | mk o rest =>
        cases o with
        | none =>
          rw [scan_nil_of_none hg]
          exact List.nil_sublist _
        | some d =>
          rw [scan_cons digitsTrie_val hg]
          have hspec := gud_spec digitsTrie s
          rw [hg] at hspec
          rcases hspec with ⟨p, k, hpr, hrest, -⟩
          have hk : 1 ≤ k := probe_pos digitsTrie_val hpr
          have hprobe := probe_spec (s.drop p)
          rw [hpr] at hprobe
          rcases hprobe with ⟨htok, -⟩
          have hne : s.drop p ≠ [] := by
            intro hnil
            rw [hnil, get_digit_nil digitsTrie_val] at hpr
            cases hpr
          rcases List.exists_cons_of_ne_nil hne with ⟨c, u, hcu⟩
          have hu : u = s.drop (p + 1) := by
            have : s.drop (p + 1) = (s.drop p).drop 1 := by
              rw [List.drop_drop]
            rw [this, hcu]
            rfl
          have htoksuf : tokensOf (s.drop p) <:+ tokensOf s := tokensOf_drop_suffix p s
          have htokcons : tokensOf (s.drop p) = d :: tokensOf (s.drop (p + 1)) := by
            rw [hcu] at htok ⊢
            rw [tokensOf_cons_some htok, hu]
          have hrest2 : rest = (s.drop (p + 1)).drop (k - 1) := by
            rw [List.drop_drop, hrest]
            have : p + 1 + (k - 1) = p + k := by omega
            rw [this]
          have hlt := gud_progress digitsTrie_val hg
          have hrec : (scan digitsTrie rest).Sublist (tokensOf rest) := ih rest (by omega)
          have hrs : tokensOf rest <:+ tokensOf (s.drop (p + 1)) := by
            rw [hrest2]
            exact tokensOf_drop_suffix (k - 1) (s.drop (p + 1))
          have : (d :: scan digitsTrie rest).Sublist (d :: tokensOf (s.drop (p + 1))) :=
            List.Sublist.cons₂ d (hrec.trans hrs.sublist)
          have hfin : (d :: scan digitsTrie rest).Sublist (tokensOf (s.drop p)) := by
            rw [htokcons]
            exact this
          exact hfin.trans htoksuf.sublist
  intro s
  exact main s.length s le_rfl

/-! ### Derived facts about calibration over the built-in trie -/

theorem headD_mem {l : List Nat} (h : l ≠ []) : l.headD 0 ∈ l := by
  cases l with
  | nil => exact absurd rfl h
  | cons a u => simp

theorem getLastD_mem : ∀ (l : List Nat) (a : Nat), l ≠ [] → l.getLastD a ∈ l := by
  intro l
  induction l with
  | nil => intro a h; exact absurd rfl h
  | cons b u ih =>
    intro a _
    rw [List.getLastD_cons]
    cases hu : u with
    | nil => simp
    | cons x v =>
      rw [← hu]
      have : u.getLastD b ∈ u := ih b (by rw [hu]; exact List.cons_ne_nil x v)
      exact List.mem_cons_of_mem _ this

theorem scan_digits_nil_iff (s : List Char) :
    (scan digitsTrie s = [] ↔ tokensOf s = []) := by
  have hd := gud_digits s
  cases hg : get_until_digit digitsTrie s with
  | mk o rest =>
    rw [hg] at hd
    cases o with
    | some d =>
      rw [scan_cons digitsTrie_val hg]
      simp [hd.1]
    | none =>
      rw [scan_nil_of_none hg]
      simp [hd]

theorem scan_digits_headD {s : List Char} (h : tokensOf s ≠ []) :
    (scan digitsTrie s).headD 0 = (tokensOf s).headD 0 := by
  have hd := gud_digits s
  cases hg : get_until_digit digitsTrie s with
  | mk o rest =>
    rw [hg] at hd
    cases o with
    | some d =>
      rw [scan_cons digitsTrie_val hg, hd.2]
      rfl
    | none => exact absurd hd h

/-- Calibration over the built-in trie, written against the specification's
token stream for the first digit and the scanner's yield for the last. -/
theorem calibrate_digits_eq (s : List Char) :
    calibrate digitsTrie s =
      if tokensOf s = [] then 0
      else 10 * (tokensOf s).headD 0 + (scan digitsTrie s).getLastD 0 := by
  rw [calibrate_eq_scan digitsTrie_val]
  by_cases h : tokensOf s = []
  · rw [if_pos h, if_pos ((scan_digits_nil_iff s).mpr h)]
  · rw [if_neg h, if_neg (fun hs => h ((scan_digits_nil_iff s).mp hs)),
      scan_digits_headD h]

theorem calibrate_digits_zero {s : List Char} (h : tokensOf s = []) :
    calibrate digitsTrie s = 0 := by
  rw [calibrate_digits_eq, if_pos h]

theorem mem_scan_bound {s : List Char} {d : Nat} (h : d ∈ scan digitsTrie s) :
    1 ≤ d ∧ d ≤ 9 :=
  mem_tokensOf_bound ((scan_sublist_tokensOf s).subset h)

theorem calibrate_digits_pos {s : List Char} (h : tokensOf s ≠ []) :
    11 ≤ calibrate digitsTrie s := by
  rw [calibrate_digits_eq, if_neg h]
  have hscan : scan digitsTrie s ≠ [] := fun hs => h ((scan_digits_nil_iff s).mp hs)
  have h1 : 1 ≤ (tokensOf s).headD 0 := (mem_tokensOf_bound (headD_mem h)).1
  have h2 : 1 ≤ (scan digitsTrie s).getLastD 0 :=
    (mem_scan_bound (getLastD_mem _ 0 hscan)).1
  omega

theorem calibrate_digits_le (s : List Char) : calibrate digitsTrie s ≤ 99 := by
  rw [calibrate_digits_eq]
  by_cases h : tokensOf s = []
  · rw [if_pos h]; omega
  · rw [if_neg h]
    have hscan : scan digitsTrie s ≠ [] := fun hs => h ((scan_digits_nil_iff s).mp hs)
    have h1 : (tokensOf s).headD 0 ≤ 9 := (mem_tokensOf_bound (headD_mem h)).2
    have h2 : (scan digitsTrie s).getLastD 0 ≤ 9 :=
      (mem_scan_bound (getLastD_mem _ 0 hscan)).2
    omega

/-! ### Matching a vocabulary key at the head of the line -/

/-- When a vocabulary key sits at the start of the line, the scanner matches it
there and advances exactly past it. -/
theorem gud_digits_key {k : List Char} {v : Nat} (b : List Char)
    (hm : (k, v) ∈ digitKeys) :
    get_until_digit digitsTrie (k ++ b) = (some v, b) := by
  have hpv : pathVal digitsTrie k = some v := digitsTrie_stores_all (k, v) hm
  obtain ⟨d, n, hd⟩ := get_digit_of_pathVal 0 hpv (List.prefix_append k b)
  obtain ⟨k2, hpre, hpv2, hn⟩ := get_digit_sound hd
  have hmem2 : (k2, d) ∈ digitKeys := digitsTrie_pathVal_mem hpv2
  have hkeq : ((k2, d) : List Char × Nat) = (k, v) :=
    digitKeys_unique hmem2 hm hpre (List.prefix_append k b)
  injection hkeq with hk2 hdv
  subst hk2
  subst hdv
  have hnn : n = k2.length := by
    rw [hn]
    omega
  subst hnn
  have hne : k2 ≠ [] := digitKeys_key_ne_nil (k2, d) hm
  obtain ⟨c, u, hcu⟩ := List.exists_cons_of_ne_nil hne
  have hcons : k2 ++ b = c :: (u ++ b) := by rw [hcu]; rfl
  have hd2 : digitsTrie.get_digit (c :: (u ++ b)) 0 = (some d, k2.length) := by
    rw [← hcons]
    exact hd
  rw [hcons, gud_cons_some hd2, ← hcons, List.drop_left]


/-! ### Earliest-terminal characterization of `get_digit` -/

theorem get_digit_earliest_fwd :
    ∀ {s : List Char} {t : TrieNode} {rc d n : Nat},
      t.get_digit s rc = (some d, n) →
      ∃ m, n = rc + m ∧ EarliestTerminal t s d m := by
  intro s
  induction s with
  | nil =>
    intro t rc d n h
    cases hv : t.val with
    | some v =>
      rw [get_digit_val_some hv] at h
      injection h with h1 h2
      injection h1 with h1
      subst h1
      subst h2
      refine ⟨0, by omega, by simp, ⟨t, by simp [nodeAt_nil], hv⟩, by omega⟩
    | none =>
      rw [get_digit_nil hv] at h
      cases h
  | cons c cs ih =>
    intro t rc d n h
    cases hv : t.val with
    | some v =>
      rw [get_digit_val_some hv] at h
      injection h with h1 h2
      injection h1 with h1
      subst h1
      subst h2
      refine ⟨0, by omega, by simp, ⟨t, by simp [nodeAt_nil], hv⟩, by omega⟩
    | none =>
      cases hc : List.lookup c t.next with
      | some child =>
        rw [get_digit_cons_child hv hc] at h
        rcases ih h with ⟨m1, hm1, hb, ⟨u, hu, huv⟩, hall⟩
        refine ⟨m1 + 1, by omega, ?_, ⟨u, ?_, huv⟩, ?_⟩
        · simp
          omega
        · rw [List.take_succ_cons, nodeAt_cons_child hc]
          exact hu
        · intro m hm
          cases m with
          | zero => exact ⟨t, nodeAt_nil t, hv⟩
          | succ m2 =>
            rcases hall m2 (by omega) with ⟨w, hw, hwv⟩
            exact ⟨w, by rw [List.take_succ_cons, nodeAt_cons_child hc]; exact hw, hwv⟩
      | none =>
        rw [get_digit_cons_no_edge hv hc] at h
        cases h

theorem get_digit_earliest_bwd :
    ∀ {s : List Char} {t : TrieNode} {rc d m : Nat},
      EarliestTerminal t s d m → t.get_digit s rc = (some d, rc + m) := by
  intro s
  induction s with
  | nil =>
    intro t rc d m h
    rcases h with ⟨hb, ⟨u, hu, huv⟩, -⟩
    have hm : m = 0 := by simpa using hb
    subst hm
    rw [List.take_zero, nodeAt_nil] at hu
    injection hu with hu
    subst hu
    rw [get_digit_val_some huv]
    simp
  | cons c cs ih =>
    intro t rc d m h
    rcases h with ⟨hb, ⟨u, hu, huv⟩, hall⟩
    cases m with
    | zero =>
      rw [List.take_zero, nodeAt_nil] at hu
      injection hu with hu
      subst hu
      rw [get_digit_val_some huv]
      simp
    | succ m1 =>
      rcases hall 0 (by omega) with ⟨w, hw, hwv⟩
      rw [List.take_zero, nodeAt_nil] at hw
      injection hw with hw
      subst hw
      cases hc : List.lookup c t.next with
      | none =>
        rw [List.take_succ_cons, nodeAt_cons_no_edge hc] at hu
        cases hu
      | some child =>
        rw [List.take_succ_cons, nodeAt_cons_child hc] at hu
        have het : EarliestTerminal child cs d m1 := by
          refine ⟨by simpa using hb, ⟨u, hu, huv⟩, ?_⟩
          intro m2 hm2
          rcases hall (m2 + 1) (by omega) with ⟨w2, hw2, hwv2⟩
          rw [List.take_succ_cons, nodeAt_cons_child hc] at hw2
          exact ⟨w2, hw2, hwv2⟩
        rw [get_digit_cons_child hwv hc, ih het]
        have : rc + 1 + m1 = rc + (m1 + 1) := by omega
        rw [this]

/-! ### Remaining helpers for the claims -/

theorem spelledKeys_sub : ∀ kv ∈ spelledKeys, kv ∈ digitKeys := by decide

theorem spelledKeys_digitChar :
    ∀ kv ∈ spelledKeys, (([digitChar kv.2], kv.2) : List Char × Nat) ∈ digitKeys := by
  decide

theorem nodeAt_mem_subtriesD :
    ∀ {k : List Char} {n : Nat} {t u : TrieNode},
      depthLe n t = true → nodeAt t k = some u → u ∈ subtriesD n t := by
  intro k
  induction k with
  | nil =>
    intro n t u _ hn
    rw [nodeAt_nil] at hn
    injection hn with hn
    subst hn
    cases n <;> simp [subtriesD]
  | cons c k1 ih =>
    intro n t u hd hn
    cases hc : List.lookup c t.next with
    | none =>
      rw [nodeAt_cons_no_edge hc] at hn
      cases hn
    | some child =>
      rw [nodeAt_cons_child hc] at hn
      cases n with
      | zero =>
        rw [depthLe, List.isEmpty_iff] at hd
        rw [hd] at hc
        cases hc
      | succ m =>
        rw [depthLe, List.all_eq_true] at hd
        have hdc : depthLe m child = true := by
          simpa using hd _ (lookup_mem hc)
        have := ih hdc hn
        rw [subtriesD]
        refine List.mem_cons_of_mem _ ?_
        rw [List.mem_flatMap]
        exact ⟨(c, child), lookup_mem hc, this⟩

theorem digitsTrie_leaves :
    ∀ u ∈ subtriesD 5 digitsTrie, u.next.isEmpty = false ∨ u.val.isSome = true := by
  decide

/-! ### Claims -/

/-- C1 (counterexample): the scanner does NOT advance by one character after a
match: in `eightwo` it matches `eight`, advances past all five characters to
`wo`, and therefore the `two` sharing the `t` is never produced — the yielded
sequence is `[8]`, not `[8, 2]`. -/
theorem overlap_advance_counterexample :
    get_until_digit digitsTrie ("eightwo".toList) = (some 8, "wo".toList) ∧
    scan digitsTrie ("eightwo".toList) = [8] ∧
    ¬ ((2 : Nat) ∈ scan digitsTrie ("eightwo".toList)) := by
  refine ⟨by decide, by decide, by decide⟩

/-- C1 (amended): after each successful token match the Scanner advances its
position past the matched token — from position `p` to `p + n` where `n` is the
matched length, not to `p + 1` — and only failed probes advance by one
character; the match found is always at the earliest matching position, and a
returned miss means no position of the line matches. Consequently overlapping
tokens are not all yielded. -/
theorem scanner_advances_past_match :
    ∀ (t : TrieNode) (s : List Char),
      match get_until_digit t s with
      | (some d, rest) => ∃ p n, t.get_digit (s.drop p) 0 = (some d, n) ∧
          rest = s.drop (p + n) ∧
          ∀ q, q < p → (t.get_digit (s.drop q) 0).1 = none
      | (none, rest) => rest = [] ∧ ∀ p, (t.get_digit (s.drop p) 0).1 = none :=
  fun t s => gud_spec t s

/-- Witness for `scanner_advances_past_match` at the line `eightwo`: the match
of `eight` (position 0, length 5) leaves the cursor at `wo`. -/
theorem scanner_advances_past_match_witness :
    ∃ p n, digitsTrie.get_digit (("eightwo".toList).drop p) 0 = (some 8, n) ∧
      "wo".toList = ("eightwo".toList).drop (p + n) ∧
      ∀ q, q < p → (digitsTrie.get_digit (("eightwo".toList).drop q) 0).1 = none := by
  have h := scanner_advances_past_match digitsTrie ("eightwo".toList)
  rw [show get_until_digit digitsTrie ("eightwo".toList) = (some 8, "wo".toList)
    from by decide] at h
  exact h

/-- C2 (counterexample): the ones digit is not in general the last digit token
occurring in the line: in `oneight` the token occurrences are `one` then
`eight` (last token 8, so the claim predicts 18), but the scanner, having
matched `one` and advanced past it, never sees `eight`, and `calibrate`
returns 11. -/
theorem calibration_last_token_counterexample :
    calibrate digitsTrie ("oneight".toList) = 11 ∧
    tokensOf ("oneight".toList) = [1, 8] ∧
    ¬ (calibrate digitsTrie ("oneight".toList) =
        10 * (tokensOf ("oneight".toList)).headD 0 +
          (tokensOf ("oneight".toList)).getLastD 0) := by
  refine ⟨by decide, by decide, by decide⟩

/-- C2 (amended): the calibration value is `10 * d_first + d_last` where
`d_first` is the digit of the first token occurrence in the line and `d_last`
is the last digit actually yielded by the scanner (which advances past each
matched token, possibly skipping overlapping occurrences); it is `0` when the
line has no token occurrence, and a line whose only token occurrence is `d`
yields `11 * d`. -/
theorem calibration_first_last :
    ∀ line : List Char,
      calibrate digitsTrie line =
        (if tokensOf line = [] then 0
         else 10 * (tokensOf line).headD 0 + (scan digitsTrie line).getLastD 0) ∧
      (scan digitsTrie line = [] ↔ tokensOf line = []) ∧
      ∀ d : Nat, tokensOf line = [d] → calibrate digitsTrie line = 11 * d := by
  intro line
  refine ⟨calibrate_digits_eq line, scan_digits_nil_iff line, ?_⟩
  intro d hd
  have hsub := scan_sublist_tokensOf line
  rw [hd] at hsub
  rcases List.sublist_singleton.mp hsub with hnil | hone
  · have : tokensOf line = [] := (scan_digits_nil_iff line).mp hnil
    rw [hd] at this
    cases this
  · rw [calibrate_digits_eq line, hd, hone]
    simp
    omega

/-- Witness for `calibration_first_last`: `treb7uchet` has the single token
occurrence `7` and calibrates to `77 = 11 * 7`. -/
theorem calibration_first_last_witness :
    calibrate digitsTrie ("treb7uchet".toList) = 11 * 7 :=
  (calibration_first_last ("treb7uchet".toList)).2.2 7 (by decide)

/-- C3: the fourteen scenario lines calibrate to their expected values and the
four-line file sums to 142. -/
theorem scenario_values :
    calibrate digitsTrie ("1abc2".toList) = 12 ∧
    calibrate digitsTrie ("pqr3stu8vwx".toList) = 38 ∧
    calibrate digitsTrie ("a1b2c3d4e5f".toList) = 15 ∧
    calibrate digitsTrie ("treb7uchet".toList) = 77 ∧
    calibrate digitsTrie ("two1nine".toList) = 29 ∧
    calibrate digitsTrie ("eightwothree".toList) = 83 ∧
    calibrate digitsTrie ("abcone2threexyz".toList) = 13 ∧
    calibrate digitsTrie ("xtwone3four".toList) = 24 ∧
    calibrate digitsTrie ("zoneight234".toList) = 14 ∧
    calibrate digitsTrie ("7pqrstsixteen".toList) = 76 ∧
    calibrate digitsTrie ("4nineeightseven2".toList) = 42 ∧
    calibrate digitsTrie ("53sdthreeninexrfone".toList) = 51 ∧
    calibrate digitsTrie ("hwqesaasd".toList) = 0 ∧
    calibrate digitsTrie ("fjdsgcsqppzdthreefour3one3lvmpm".toList) = 33 ∧
    total digitsTrie
      ["1abc2".toList, "pqr3stu8vwx".toList, "a1b2c3d4e5f".toList,
       "treb7uchet".toList] = 142 := by
  refine ⟨by decide, by decide, by decide, by decide, by decide, by decide,
    by decide, by decide, by decide, by decide, by decide, by decide,
    by decide, by decide, by decide⟩

/-- C4 (counterexample): replacing a spelled token occurrence with its ASCII
digit character can change the calibration value: in `eightwo` (= `eigh`
followed by the occurrence `two`), replacing `two` by `2` destroys the
overlapping `eight`, and the value changes from 88 to 22. -/
theorem replacement_parity_counterexample :
    calibrate digitsTrie ("eigh".toList ++ "two".toList) = 88 ∧
    calibrate digitsTrie ("eigh".toList ++ [digitChar 2]) = 22 ∧
    ¬ (calibrate digitsTrie ("eigh".toList ++ "two".toList) =
        calibrate digitsTrie ("eigh".toList ++ [digitChar 2])) := by
  refine ⟨by decide, by decide, by decide⟩

/-- C5: `get_digit` started at a position returns `(some d, n)` exactly when
the first terminal node along the descent is reached after consuming `n`
characters and carries `d` — every shorter path exists and is non-terminal, so
the descent never continues past a terminal — and returns a miss exactly when
no such terminal exists (edge missing or line exhausted first). -/
theorem get_digit_first_terminal :
    ∀ (t : TrieNode) (s : List Char),
      (∀ d n : Nat, t.get_digit s 0 = (some d, n) ↔ EarliestTerminal t s d n) ∧
      ((t.get_digit s 0).1 = none ↔ ∀ d n : Nat, ¬ EarliestTerminal t s d n) := by
  intro t s
  constructor
  · intro d n
    constructor
    · intro h
      rcases get_digit_earliest_fwd h with ⟨m, hm, het⟩
      have hnm : n = m := by omega
      rw [hnm]
      exact het
    · intro het
      have h2 : t.get_digit s 0 = (some d, 0 + n) := get_digit_earliest_bwd het
      simpa using h2
  · constructor
    · intro h0 d n het
      have h2 : t.get_digit s 0 = (some d, 0 + n) := get_digit_earliest_bwd het
      rw [h2] at h0
      simp at h0
    · intro hall
      cases hp : t.get_digit s 0 with
      | mk o n2 =>
        cases o with
        | none => rfl
        | some d2 =>
          rcases get_digit_earliest_fwd hp with ⟨m, hm, het⟩
          exact absurd het (hall d2 m)

/-- Witness for `get_digit_first_terminal`: on `eight` the probe stops at the
terminal for `eight` after five characters. -/
theorem get_digit_first_terminal_witness :
    EarliestTerminal digitsTrie ("eight".toList) 8 5 :=
  ((get_digit_first_terminal digitsTrie ("eight".toList)).1 8 5).mp (by decide)

/-- C6: for every input line — arbitrary characters, including lines with no
digit tokens and the empty line — `calibrate` over the built-in trie is a total
function whose result lies in [0, 99]; there is no error value or panic: the
result type carries only the calibration number. -/
theorem calibrate_total_in_range :
    ∀ line : List Char, calibrate digitsTrie line ≤ 99 :=
  calibrate_digits_le

/-- C7: a line with no digit token — no ASCII digit 1..9 and no spelled word
`one`..`nine` anywhere in it — calibrates to 0; the condition is expressed by
the return value, never by an error. -/
theorem no_token_calibrate_zero :
    ∀ line : List Char, tokensOf line = [] → calibrate digitsTrie line = 0 :=
  fun _ h => calibrate_digits_zero h

/-- Witness for `no_token_calibrate_zero` at the token-free line `hwqesaasd`. -/
theorem no_token_calibrate_zero_witness :
    tokensOf ("hwqesaasd".toList) = [] ∧ calibrate digitsTrie ("hwqesaasd".toList) = 0 :=
  ⟨by decide, no_token_calibrate_zero ("hwqesaasd".toList) (by decide)⟩

/-- C8: the built-in trie stores exactly the eighteen (key, value) pairs of the
vocabulary table — every table key reaches a terminal node carrying its digit,
and no other key reaches a terminal node — its root carries no value, and
every leaf (childless node) carries a value. -/
theorem trie_exactly_digit_keys :
    (∀ kv ∈ digitKeys, pathVal digitsTrie kv.1 = some kv.2) ∧
    (∀ (k : List Char) (d : Nat), pathVal digitsTrie k = some d → (k, d) ∈ digitKeys) ∧
    digitsTrie.val = none ∧
    (∀ (k : List Char) (u : TrieNode),
      nodeAt digitsTrie k = some u → u.next = [] → u.val ≠ none) := by
  refine ⟨digitsTrie_stores_all, fun k d h => digitsTrie_pathVal_mem h, rfl, ?_⟩
  intro k u hk hempty hv
  have hmem : u ∈ subtriesD 5 digitsTrie := nodeAt_mem_subtriesD digitsTrie_depth hk
  rcases digitsTrie_leaves u hmem with h1 | h2
  · rw [hempty] at h1
    simp at h1
  · rw [hv] at h2
    simp at h2

/-- Witness for `trie_exactly_digit_keys`: `one` stores 1, and the path `7`
(which is terminal with value 7) is one of the eighteen pairs. -/
theorem trie_exactly_digit_keys_witness :
    pathVal digitsTrie ("one".toList) = some 1 ∧
    (("7".toList, 7) : List Char × Nat) ∈ digitKeys :=
  ⟨trie_exactly_digit_keys.1 ("one".toList, 1) (by decide),
   trie_exactly_digit_keys.2.1 ("7".toList) 7 (by decide)⟩

/-- C9: running the built-in construction twice produces structurally equal
tries, and the two give identical calibration outputs on every line. -/
theorem with_digits_idempotent :
    TrieNode.with_digits = TrieNode.with_digits_again ∧
    ∀ line : List Char,
      calibrate TrieNode.with_digits line = calibrate TrieNode.with_digits_again line :=
  ⟨rfl, fun _ => rfl⟩

/-- C10: calibration over the built-in trie is 0 exactly on the lines with no
digit token, and any line containing at least one digit token calibrates to at
least 11 — no result ever falls in [1, 10]. -/
theorem calibrate_zero_iff_no_token :
    ∀ line : List Char,
      (calibrate digitsTrie line = 0 ↔ tokensOf line = []) ∧
      (tokensOf line ≠ [] → 11 ≤ calibrate digitsTrie line) := by
  intro line
  refine ⟨⟨?_, calibrate_digits_zero⟩, calibrate_digits_pos⟩
  intro h0
  by_contra hne
  have := calibrate_digits_pos hne
  omega

/-- Witness for `calibrate_zero_iff_no_token`: the token-free line calibrates
to 0 and `1abc2` calibrates to at least 11. -/
theorem calibrate_zero_iff_no_token_witness :
    calibrate digitsTrie ("hwqesaasd".toList) = 0 ∧
    11 ≤ calibrate digitsTrie ("1abc2".toList) :=
  ⟨(calibrate_zero_iff_no_token ("hwqesaasd".toList)).1.mpr (by decide),
   (calibrate_zero_iff_no_token ("1abc2".toList)).2 (by decide)⟩

/-! ### Replacement parity for non-overlapping occurrences -/

/-- A probe miss always reports zero characters read. -/
theorem get_digit_none_zero :
    ∀ {s : List Char} {t : TrieNode} {rc m : Nat},
      t.get_digit s rc = (none, m) → m = 0 := by
  intro s
  induction s with
  | nil =>
    intro t rc m h
    cases hv : t.val with
    | some v =>
      rw [get_digit_val_some hv] at h
      cases h
    | none =>
      rw [get_digit_nil hv] at h
      injection h with h1 h2
      exact h2.symm
  | cons c cs ih =>
    intro t rc m h
    cases hv : t.val with
    | some v =>
      rw [get_digit_val_some hv] at h
      cases h
    | none =>
      cases hc : List.lookup c t.next with
      | some child =>
        rw [get_digit_cons_child hv hc] at h
        exact ih h
      | none =>
        rw [get_digit_cons_no_edge hv hc] at h
        injection h with h1 h2
        exact h2.symm

/-- No vocabulary key of length at least two contains an ASCII digit
character (the spelled words are letters only). -/
theorem digitKeys_multichar_no_digitChar :
    ∀ kv ∈ digitKeys, ∀ d : Nat, d < 10 → 1 ≤ d →
      2 ≤ (kv : List Char × Nat).1.length → ¬ (digitChar d ∈ kv.1) := by
  decide

/-- A prefix of `a ++ X` no longer than `a` is a prefix of `a`. -/
theorem prefix_of_short {k0 a X : List Char} (h : k0 <+: a ++ X)
    (hlen : k0.length ≤ a.length) : k0 <+: a := by
  rcases List.prefix_or_prefix_of_prefix h (List.prefix_append a X) with h1 | h2
  · exact h1
  · have heq : a = k0 := h2.eq_of_length (le_antisymm h2.length_le hlen)
    rw [heq]

/-- If every token at the head of `a ++ b1` fits inside `a`, a successful probe
there is reproduced verbatim on `a ++ b2`. -/
theorem probe_agree_fwd {a b1 b2 : List Char} {d n : Nat}
    (h1 : ∀ kv ∈ digitKeys, (kv : List Char × Nat).1 <+: a ++ b1 →
      kv.1.length ≤ a.length)
    (hp : digitsTrie.get_digit (a ++ b1) 0 = (some d, n)) :
    digitsTrie.get_digit (a ++ b2) 0 = (some d, n) := by
  have hps := probe_spec (a ++ b1)
  rw [hp] at hps
  rcases hps with ⟨-, k0, hmem, hpre, hn⟩
  have hlen : k0.length ≤ a.length := h1 (k0, d) hmem hpre
  have hk0a : k0 <+: a := prefix_of_short hpre hlen
  have hpre2 : k0 <+: a ++ b2 := hk0a.trans (List.prefix_append a b2)
  have hpv : pathVal digitsTrie k0 = some d := digitsTrie_stores_all (k0, d) hmem
  obtain ⟨d2, n2, hp2⟩ := get_digit_of_pathVal 0 hpv hpre2
  have hps2 := probe_spec (a ++ b2)
  rw [hp2] at hps2
  rcases hps2 with ⟨-, k2, hmem2, hpre2x, hn2⟩
  have hkd : ((k0, d) : List Char × Nat) = (k2, d2) :=
    digitKeys_unique hmem hmem2 hpre2 hpre2x
  injection hkd with hk he
  rw [hp2, ← he, hn2, ← hk, ← hn]

/-- Probes at the head agree on two lines sharing the prefix `a`, provided
every token occurrence at the head of either line fits inside `a`. -/
theorem probe_agree {a b1 b2 : List Char}
    (h1 : ∀ kv ∈ digitKeys, (kv : List Char × Nat).1 <+: a ++ b1 →
      kv.1.length ≤ a.length)
    (h2 : ∀ kv ∈ digitKeys, (kv : List Char × Nat).1 <+: a ++ b2 →
      kv.1.length ≤ a.length) :
    digitsTrie.get_digit (a ++ b1) 0 = digitsTrie.get_digit (a ++ b2) 0 := by
  cases hp1 : digitsTrie.get_digit (a ++ b1) 0 with
  | mk o n =>
    cases o with
    | some d => exact (probe_agree_fwd h1 hp1).symm
    | none =>
      cases hp2 : digitsTrie.get_digit (a ++ b2) 0 with
      | mk o2 n2 =>
        cases o2 with
        | some d2 =>
          have hback : digitsTrie.get_digit (a ++ b1) 0 = (some d2, n2) :=
            probe_agree_fwd h2 hp2
          rw [hp1] at hback
          cases hback
        | none =>
          rw [get_digit_none_zero hp1, get_digit_none_zero hp2]

/-- A missed probe at the head lets the scan coincide with the tail's scan. -/
theorem scan_cons_of_probe_none {t : TrieNode} {x : Char} {u : List Char} {m : Nat}
    (hval : t.val = none) (h : t.get_digit (x :: u) 0 = (none, m)) :
    scan t (x :: u) = scan t u := by
  have hg : get_until_digit t (x :: u) = get_until_digit t u := gud_cons_none h
  cases hgu : get_until_digit t u with
  | mk o rest =>
    cases o with
    | some d => rw [scan_cons hval (hg.trans hgu), scan_cons hval hgu]
    | none => rw [scan_nil_of_none (hg.trans hgu), scan_nil_of_none hgu]

/-- Replacing a spelled key standing at the very start by its digit character
leaves the yielded sequence unchanged. -/
theorem scan_replace_nil {k : List Char} {v : Nat} (hm : (k, v) ∈ spelledKeys)
    (b : List Char) :
    scan digitsTrie (k ++ b) = scan digitsTrie (digitChar v :: b) := by
  have hmk : ((k, v) : List Char × Nat) ∈ digitKeys := spelledKeys_sub (k, v) hm
  have hmc : (([digitChar v], v) : List Char × Nat) ∈ digitKeys := by
    simpa using spelledKeys_digitChar (k, v) hm
  have h1 := gud_digits_key b hmk
  have h2 := gud_digits_key b hmc
  rw [List.singleton_append] at h2
  rw [scan_cons digitsTrie_val h1, scan_cons digitsTrie_val h2]

/-- Core replacement lemma: if no token occurrence other than the spelled
occurrence `k` at position `a.length` intersects the span of that occurrence,
replacing it by its digit character leaves the scanner's entire yielded
sequence unchanged. -/
theorem scan_replace {k : List Char} {v : Nat} (hm : (k, v) ∈ spelledKeys) :
    ∀ (N : Nat) (a b : List Char), a.length ≤ N →
      (∀ q, q < (a ++ (k ++ b)).length → q ≠ a.length →
        ∀ kv ∈ digitKeys, (kv : List Char × Nat).1 <+: (a ++ (k ++ b)).drop q →
          q + kv.1.length ≤ a.length ∨ a.length + k.length ≤ q) →
      scan digitsTrie (a ++ (k ++ b)) = scan digitsTrie (a ++ (digitChar v :: b)) := by
  have hmk : ((k, v) : List Char × Nat) ∈ digitKeys := spelledKeys_sub (k, v) hm
  have hvb := digitKeys_val_bound (k, v) hmk
  intro N
  induction N with
  | zero =>
    intro a b hlen _
    have ha : a = [] := List.eq_nil_of_length_eq_zero (by omega)
    subst ha
    simpa using scan_replace_nil hm b
  | succ N1 ih =>
    intro a b hlen hno
    cases a with
    | nil => simpa using scan_replace_nil hm b
    | cons x a1 =>
      have h1x : ∀ kv ∈ digitKeys, (kv : List Char × Nat).1 <+: (x :: a1) ++ (k ++ b) →
          kv.1.length ≤ (x :: a1).length := by
        intro kv hkv hpre
        have h0len : (0 : Nat) < ((x :: a1) ++ (k ++ b)).length := by
          simp [List.length_append]
        have h0ne : (0 : Nat) ≠ (x :: a1).length := by
          simp
        rcases hno 0 h0len h0ne kv hkv (by simpa using hpre) with hle | hge
        · omega
        · exfalso
          have hx1 : 1 ≤ (x :: a1).length := by simp
          omega
      have h2x : ∀ kv ∈ digitKeys, (kv : List Char × Nat).1 <+: (x :: a1) ++ (digitChar v :: b) →
          kv.1.length ≤ (x :: a1).length := by
        intro kv hkv hpre
        by_contra hgt
        push_neg at hgt
        rcases List.prefix_or_prefix_of_prefix
          (List.prefix_append (x :: a1) (digitChar v :: b)) hpre with hak | hka
        · obtain ⟨t, ht⟩ := hak
          have htne : t ≠ [] := by
            intro h0
            rw [h0, List.append_nil] at ht
            rw [← ht] at hgt
            omega
          have htpre : t <+: digitChar v :: b := by
            rw [← ht] at hpre
            exact (List.prefix_append_right_inj (x :: a1)).mp hpre
          have hcmem : digitChar v ∈ kv.1 := by
            cases t with
            | nil => exact absurd rfl htne
            | cons th tt =>
              obtain ⟨r, hr⟩ := htpre
              rw [List.cons_append] at hr
              injection hr with hh _
              rw [← ht]
              subst hh
              exact List.mem_append.mpr (Or.inr (List.mem_cons_self _ _))
          have h2k : 2 ≤ kv.1.length := by
            have hx1 : 1 ≤ (x :: a1).length := by simp
            omega
          exact digitKeys_multichar_no_digitChar kv hkv v (by omega) hvb.1 h2k hcmem
        · exact absurd hka.length_le (by omega)
      have hpa := probe_agree h1x h2x
      cases hp1 : digitsTrie.get_digit ((x :: a1) ++ (k ++ b)) 0 with
      | mk o n =>
        have hp2 : digitsTrie.get_digit ((x :: a1) ++ (digitChar v :: b)) 0 = (o, n) := by
          rw [← hpa]
          exact hp1
        cases o with
        | none =>
          have hp1x : digitsTrie.get_digit (x :: (a1 ++ (k ++ b))) 0 = (none, n) := hp1
          have hp2x : digitsTrie.get_digit (x :: (a1 ++ (digitChar v :: b))) 0 = (none, n) := hp2
          rw [List.cons_append, List.cons_append,
            scan_cons_of_probe_none digitsTrie_val hp1x,
            scan_cons_of_probe_none digitsTrie_val hp2x]
          apply ih a1 b
          · simp only [List.length_cons] at hlen
            omega
          · intro q hq hne kv hkv hpre
            have hq1 : q + 1 < ((x :: a1) ++ (k ++ b)).length := by
              simp only [List.length_append, List.length_cons] at hq ⊢
              omega
            have hne1 : q + 1 ≠ (x :: a1).length := by
              simp only [List.length_cons]
              omega
            have hdrop : ((x :: a1) ++ (k ++ b)).drop (q + 1) = (a1 ++ (k ++ b)).drop q := by
              rw [List.cons_append, List.drop_succ_cons]
            rcases hno (q + 1) hq1 hne1 kv hkv (by rw [hdrop]; exact hpre) with h | h
            · left
              simp only [List.length_cons] at h
              omega
            · right
              simp only [List.length_cons] at h
              omega
        | some d =>
          have hps := probe_spec ((x :: a1) ++ (k ++ b))
          rw [hp1] at hps
          rcases hps with ⟨-, k0, hmem0, hpre0, hn0⟩
          have hn_le : n ≤ (x :: a1).length := by
            rw [hn0]
            exact h1x (k0, d) hmem0 hpre0
          have hn_pos : 1 ≤ n := probe_pos digitsTrie_val hp1
          have hg1 : get_until_digit digitsTrie ((x :: a1) ++ (k ++ b)) =
              (some d, ((x :: a1) ++ (k ++ b)).drop n) := gud_cons_some hp1
          have hg2 : get_until_digit digitsTrie ((x :: a1) ++ (digitChar v :: b)) =
              (some d, ((x :: a1) ++ (digitChar v :: b)).drop n) := gud_cons_some hp2
          have hd1 : ((x :: a1) ++ (k ++ b)).drop n = (x :: a1).drop n ++ (k ++ b) :=
            List.drop_append_of_le_length hn_le
          have hd2 : ((x :: a1) ++ (digitChar v :: b)).drop n =
              (x :: a1).drop n ++ (digitChar v :: b) :=
            List.drop_append_of_le_length hn_le
          have hAL : ((x :: a1).drop n).length = (x :: a1).length - n :=
            List.length_drop n (x :: a1)
          rw [scan_cons digitsTrie_val hg1, scan_cons digitsTrie_val hg2, hd1, hd2]
          congr 1
          apply ih ((x :: a1).drop n) b
          · rw [hAL]
            simp only [List.length_cons] at hlen ⊢
            omega
          · intro q hq hne kv hkv hpre
            rw [List.length_append, hAL] at hq
            rw [hAL] at hne
            have hdq : ((x :: a1).drop n ++ (k ++ b)).drop q =
                ((x :: a1) ++ (k ++ b)).drop (n + q) := by
              rw [← List.drop_drop, hd1]
            have hqb : n + q < ((x :: a1) ++ (k ++ b)).length := by
              rw [List.length_append]
              simp only [List.length_cons] at hq hn_le ⊢
              omega
            have hqe : n + q ≠ (x :: a1).length := by
              simp only [List.length_cons] at hne hn_le ⊢
              omega
            rcases hno (n + q) hqb hqe kv hkv (by rw [← hdq]; exact hpre) with h | h
            · left
              rw [hAL]
              simp only [List.length_cons] at h hn_le ⊢
              omega
            · right
              rw [hAL]
              simp only [List.length_cons] at h hn_le ⊢
              omega

/-- C4 (amended): replacing a spelled token occurrence with its ASCII digit
character never changes the calibration value, provided the occurrence shares
no character with any other token occurrence of the line (every other
occurrence's span is disjoint from its span); replacing an occurrence that
overlaps another token occurrence can change the value. -/
theorem replacement_parity_non_overlapping :
    ∀ (a : List Char), ∀ kv ∈ spelledKeys, ∀ b : List Char,
      (∀ q, q < (a ++ ((kv : List Char × Nat).1 ++ b)).length → q ≠ a.length →
        ∀ kv2 ∈ digitKeys, (kv2 : List Char × Nat).1 <+: (a ++ (kv.1 ++ b)).drop q →
          q + kv2.1.length ≤ a.length ∨ a.length + kv.1.length ≤ q) →
      calibrate digitsTrie (a ++ (kv.1 ++ b)) =
        calibrate digitsTrie (a ++ (digitChar kv.2 :: b)) := by
  intro a kv hm b hno
  rw [calibrate_eq_scan digitsTrie_val, calibrate_eq_scan digitsTrie_val,
    scan_replace hm a.length a b le_rfl hno]

/-- Witness for `replacement_parity_non_overlapping`: in `x2zonew3` the
occurrence `one` (position 3) is disjoint from the tokens `2` and `3`, and
replacing it mid-line gives `x2z1w3` with the same calibration value. -/
theorem replacement_parity_non_overlapping_witness :
    (("one".toList, 1) : List Char × Nat) ∈ spelledKeys ∧
    calibrate digitsTrie ("x2z".toList ++ ("one".toList ++ "w3".toList)) =
      calibrate digitsTrie ("x2z".toList ++ (digitChar 1 :: "w3".toList)) :=
  ⟨by decide, replacement_parity_non_overlapping ("x2z".toList) ("one".toList, 1)
    (by decide) ("w3".toList) (by decide)⟩
